import Mathlib

/-!
Verification of the jlcparts database conversion pipeline
(`db_build/jlcparts_db_convert.py`).

Embedding choices:
* Python strings become `List Char` (`Str`).
* The price value `price_dollars` becomes an exact rational; `round(x, 3)`
  and `f"{x:.3f}"` both correctly round the exact value of the stored
  number with ties to even, which is `roundHalfEven` below.
* The in-place mutations of the price helpers are modelled by explicit
  "state of the argument after the call" functions.
* The sqlite stores are modelled as lists: the destination `parts` table is
  the list of committed rows, a committed batch at a time.
-/

set_option maxHeartbeats 1000000

unseal Rat.add Rat.mul Rat.inv Rat.sub

/-- Python strings are modelled as lists of characters. -/
abbrev Str := List Char

/-- Turn a Lean string literal into the `Str` model. -/
def strOf (s : String) : Str := s.data

namespace PyStr

/-- Python `str.lower` (ASCII case folding, which is all the source needs). -/
def lower (s : Str) : Str := s.map Char.toLower

/-- Python substring test `needle in hay`. -/
def containsSub (hay needle : Str) : Bool :=
  match hay with
  | [] => needle.isEmpty
  | _ :: rest => needle.isPrefixOf hay || containsSub rest needle

/-- Python `str.replace(pat, sub)` for a non-empty pattern: every
non-overlapping occurrence is replaced, scanning left to right; the first
argument counts characters of a just-matched pattern still to walk over. -/
def replaceGo (pat sub : Str) : Nat → Str → Str
  | _, [] => []
  | k + 1, _ :: rest => replaceGo pat sub k rest
  | 0, c :: rest =>
    if pat.isPrefixOf (c :: rest) then
      sub ++ replaceGo pat sub (pat.length - 1) rest
    else
      c :: replaceGo pat sub 0 rest

/-- Python `str.replace(pat, sub)`; an empty pattern inserts `sub` at every
position, as Python does. -/
def replaceAll (pat sub s : Str) : Str :=
  if pat.isEmpty then sub ++ (s.map fun c => c :: sub).flatten
  else replaceGo pat sub 0 s

/-- Python `str.strip()` (ASCII whitespace is all the pipeline meets). -/
def strip (s : Str) : Str :=
  ((s.dropWhile Char.isWhitespace).reverse.dropWhile Char.isWhitespace).reverse

end PyStr

/-! ### Decimal formatting and parsing -/

/-- Round a rational to the nearest integer with ties to even: the rounding
applied by `round(x, 3)` and by `.3f` formatting to the exact value of the
stored number. -/
def roundHalfEven (x : ℚ) : ℤ :=
  if x - (⌊x⌋ : ℚ) < 1/2 then ⌊x⌋
  else if 1/2 < x - (⌊x⌋ : ℚ) then ⌊x⌋ + 1
  else if ⌊x⌋ % 2 = 0 then ⌊x⌋ else ⌊x⌋ + 1

/-- `1000 * q` rounded to an integer, ties to even: the integer amount of
thousandths kept by the precision reduction. -/
def round3i (q : ℚ) : ℤ := roundHalfEven (1000 * q)

/-- `round(q, 3)`: the 3-decimal rounding of `q`. -/
def round3 (q : ℚ) : ℚ := (round3i q : ℚ) / 1000

/-- The character for decimal digit `d`. -/
def digitC (d : Nat) : Char := Char.ofNat (48 + d)

/-- Decimal rendering of a natural number (`str(n)` for `n ≥ 0`). -/
def natStr (n : Nat) : Str :=
  if n = 0 then ['0'] else (Nat.digits 10 n).reverse.map digitC

/-- `f"{q:.3f}"`: sign, integer part, dot, exactly three decimal digits. -/
def fmt3 (q : ℚ) : Str :=
  (if q < 0 then ['-'] else []) ++
    natStr ((round3i q).natAbs / 1000) ++
    '.' :: [digitC ((round3i q).natAbs % 1000 / 100),
            digitC ((round3i q).natAbs % 1000 / 10 % 10),
            digitC ((round3i q).natAbs % 1000 % 10)]

/-- Numeric value of one digit character. -/
def charDigitVal (c : Char) : Nat := c.toNat - 48

/-- Value of a big-endian digit string. -/
def natVal (s : Str) : Nat := s.foldl (fun acc c => 10 * acc + charDigitVal c) 0

/-- Parse an unsigned decimal string with exactly three digits after the
point: a non-empty digit run, a point, three digits. -/
def parse3core (s1 : Str) : Option ℚ :=
  match s1.dropWhile Char.isDigit with
  | '.' :: ds =>
    if s1.takeWhile Char.isDigit ≠ [] ∧ ds.length = 3 ∧ ds.all Char.isDigit then
      some ((natVal (s1.takeWhile Char.isDigit) : ℚ) + (natVal ds : ℚ) / 1000)
    else none
  | _ => none

/-- Parse a decimal string with exactly three digits after the point,
allowing a leading minus sign. -/
def parse3 (s : Str) : Option ℚ :=
  if s.head? = some '-' then (parse3core s.tail).map Neg.neg
  else parse3core s

/-- Property of a string of the shape `fmt3` promises: something without a
decimal point, then a point, then exactly three decimal digits. -/
def ThreeDecimalStr (s : Str) : Prop :=
  ∃ (pre : Str) (a b c : Char),
    s = pre ++ ['.', a, b, c] ∧ a.isDigit ∧ b.isDigit ∧ c.isDigit ∧ '.' ∉ pre

/-- Modelled from the spec: `r` is `x` rounded to 3 decimal places with ties
to even — a multiple of 1/1000 closest to `x`, an exact tie only being
taken at an even numerator of thousandths. -/
def IsHalfEven3 (x r : ℚ) : Prop :=
  ∃ n : ℤ, r = (n : ℚ) / 1000 ∧
    (|x - r| < 1/2000 ∨ (|x - r| = 1/2000 ∧ n % 2 = 0))

/-! ### Price entries and the three normalizer operations -/

/-- One quantity-break price point (`PriceEntry` in the source): the price is
kept both as its decimal string and as the stored numeric value, mirroring
the `price_dollars_str` / `price_dollars` pair. -/
structure PriceEntry where
  min_quantity : Nat
  max_quantity : Option Nat
  price_dollars_str : Str
  price_dollars : ℚ
deriving DecidableEq

namespace Price

/-- Body of the `reduce_precision` loop on one entry: the string becomes the
3-decimal rendering and the numeric value the 3-decimal rounding. -/
def roundEntry (e : PriceEntry) : PriceEntry :=
  { e with
    price_dollars_str := fmt3 e.price_dollars
    price_dollars := round3 e.price_dollars }

/-- `Price.reduce_precision`: rewrite every entry in the list.  The Python
loop updates the entries of its argument in place and returns the very
same list object. -/
def reduce_precision (entries : List PriceEntry) : List PriceEntry :=
  entries.map roundEntry

/-- The in-place `filtered_entries[-1].max_quantity = None` assignment. -/
def setLastMaxNone : List PriceEntry → List PriceEntry
  | [] => []
  | [e] => [{ e with max_quantity := none }]
  | e :: e' :: rest => e :: setLastMaxNone (e' :: rest)

/-- `Price.filter_below_cutoff`: keep the first entry unconditionally, keep a
later entry iff its price is at least the cutoff, then force the last kept
entry open-ended. -/
def filter_below_cutoff (entries : List PriceEntry) (cutoff : ℚ) : List PriceEntry :=
  let filtered :=
    match entries with
    | [] => []
    | e :: rest => e :: rest.filter fun x => decide (cutoff ≤ x.price_dollars)
  setLastMaxNone filtered

/-- The two-pointer scan of `filter_duplicate_prices`: `f` is the (copied)
entry being merged, the list argument holds the entries not yet examined,
`acc` the already-emitted output. -/
def dedupLoop (f : PriceEntry) : List PriceEntry → List PriceEntry → List PriceEntry
  | [], acc => acc ++ [f]
  | x :: xs, acc =>
    if f.price_dollars_str = x.price_dollars_str then
      dedupLoop { f with max_quantity := x.max_quantity } xs acc
    else
      dedupLoop x xs (acc ++ [f])

/-- `Price.filter_duplicate_prices`: lists of length at most one pass through
unchanged, otherwise the two-pointer merge runs over the list. -/
def filter_duplicate_prices (entries : List PriceEntry) : List PriceEntry :=
  match entries with
  | [] => entries
  | [_] => entries
  | e :: x :: xs => dedupLoop e (x :: xs) []

/-- Modelled from the spec: the maximal runs of consecutive entries that share
one canonical price string. -/
def chunkRuns : List PriceEntry → List (List PriceEntry)
  | [] => []
  | a :: as =>
    (a :: as.takeWhile fun x => decide (x.price_dollars_str = a.price_dollars_str)) ::
      chunkRuns (as.dropWhile fun x => decide (x.price_dollars_str = a.price_dollars_str))
termination_by l => l.length
decreasing_by
  simp only [List.length_cons]
  exact Nat.lt_succ_of_le (List.Sublist.length_le (List.dropWhile_sublist _))

/-- Modelled from the spec: merge one run into a single entry that keeps the
first entry's fields and the last entry's `max_quantity`. -/
def mergeRun : List PriceEntry → PriceEntry
  | [] => ⟨0, none, [], 0⟩
  | a :: as => { a with max_quantity := (as.getLastD a).max_quantity }

/-- Modelled from the spec: replace every maximal run of consecutive entries
with equal price strings by its merged entry. -/
def filterDupSpec (entries : List PriceEntry) : List PriceEntry :=
  (chunkRuns entries).map mergeRun

end Price

/-- The fields of an entry other than `max_quantity`. -/
def keyOfEntry (e : PriceEntry) : Nat × Str × ℚ :=
  (e.min_quantity, e.price_dollars_str, e.price_dollars)

/-! ### State of the arguments after each price call

The Python helpers receive lists of mutable `PriceEntry` objects.
`reduce_precision` assigns to the fields of every entry of its argument and
returns the argument itself; `filter_below_cutoff` returns a fresh list whose
elements alias the argument's entries and then assigns
`filtered_entries[-1].max_quantity = None`, which hits the argument entry at
the position of the last retained one; `filter_duplicate_prices` deep-copies
before mutating, leaving its argument alone.  The functions below give the
state of the argument list when each call returns. -/

/-- Argument of `reduce_precision` after the call: every entry was updated in
place, so the argument now holds exactly the returned entries. -/
def reduce_precision_argAfter (entries : List PriceEntry) : List PriceEntry :=
  Price.reduce_precision entries

/-- Scan a tail from the right for the last entry whose price passes the
cutoff; when found it is the entry aliased by `filtered_entries[-1]` and
its `max_quantity` becomes `none` in place. -/
def mutateLastPassing (cutoff : ℚ) : List PriceEntry → Bool × List PriceEntry
  | [] => (false, [])
  | x :: xs =>
    match mutateLastPassing cutoff xs with
    | (true, xs') => (true, x :: xs')
    | (false, _) =>
      if cutoff ≤ x.price_dollars then (true, { x with max_quantity := none } :: xs)
      else (false, x :: xs)

/-- Argument of `filter_below_cutoff` after the call: the last retained entry
(the last passing one of the tail, or the always-retained head when no tail
entry passes) had its `max_quantity` set to `none` in place. -/
def filter_below_cutoff_argAfter (entries : List PriceEntry) (cutoff : ℚ) :
    List PriceEntry :=
  match entries with
  | [] => []
  | e :: rest =>
    match mutateLastPassing cutoff rest with
    | (true, rest') => e :: rest'
    | (false, _) => { e with max_quantity := none } :: rest

/-- Argument of `filter_duplicate_prices` after the call: the scan works on a
`copy.deepcopy` of the running entry and never assigns into the argument,
which is returned untouched. -/
def filter_duplicate_prices_argAfter (entries : List PriceEntry) : List PriceEntry :=
  entries

/-! ### Description resolution and cleanup -/

/-- The compliance token `" ROHS"` of the source. -/
def rohsTok : Str := strOf (r" ROHS")

/-- The explicit non-compliance marker `" not ROHS"` of the source. -/
def notRohsTok : Str := strOf (r" not ROHS")

/-- Outcome of `json.loads` on the raw `extra` column.  The column may be SQL
NULL, fail to parse (`malformed`, e.g. the literal text `invalid json`),
parse to a non-object value — in which case the `extra["description"]`
access raises and the exception is swallowed — or parse to an object,
modelled by its key/value pairs. -/
inductive ExtraPayload where
  | absent
  | malformed
  | nonDict
  | dict (entries : List (Str × Str))
deriving DecidableEq

/-- Lookup in a parsed JSON object. -/
def lookupAssoc : List (Str × Str) → Str → Option Str
  | [], _ => none
  | (k, v) :: rest, key => if k = key then some v else lookupAssoc rest key

/-- The primary description key of the source. -/
def descKey : Str := strOf (r"description")

/-- The fallback description key the spec describes (`describe`). -/
def describeKey : Str := strOf (r"describe")

/-- Lines 409-417 of the source: the description defaults to the raw column
and is overridden only when `extra` parses to an object that contains the
`description` key; every parse or access failure is swallowed. -/
def resolveDescription (rawDesc : Str) (extra : ExtraPayload) : Str :=
  match extra with
  | .dict es => (lookupAssoc es descKey).getD rawDesc
  | _ => rawDesc

/-- Modelled from the spec: resolution that checks a primary key and then
falls back to a secondary description key. -/
def resolveDescriptionSpec (rawDesc : Str) (extra : ExtraPayload) : Str :=
  match extra with
  | .dict es =>
    match lookupAssoc es descKey with
    | some v => v
    | none => (lookupAssoc es describeKey).getD rawDesc
  | _ => rawDesc

/-- Lines 419-442 of the source: normalise the ROHS marker, strip the second
category and the package, strip surrounding whitespace.  The source line
`description.replace("  ", " ")` discards its result, so no whitespace
collapsing happens between the package removal and the strip. -/
def cleanupDescription (desc cat2 pkg : Str) : Str :=
  let d1 :=
    if PyStr.containsSub (PyStr.lower desc) (PyStr.lower rohsTok) = false then
      desc ++ notRohsTok
    else
      PyStr.replaceAll rohsTok [] desc
  let d2 := PyStr.replaceAll cat2 [] d1
  let d3 := PyStr.replaceAll pkg [] d2
  PyStr.strip d3

/-- Modelled from the spec: collapse every run of repeated spaces to one. -/
def collapseWs : Str → Str
  | [] => []
  | [c] => [c]
  | c :: c' :: rest =>
    if c = ' ' ∧ c' = ' ' then collapseWs (c' :: rest)
    else c :: collapseWs (c' :: rest)

/-- Modelled from the spec: the reference cleanup composition — compliance
marker normalisation, category removal, package removal, whitespace
collapse, trim. -/
def cleanupSpec (desc cat2 pkg : Str) : Str :=
  let d1 :=
    if PyStr.containsSub (PyStr.lower desc) (PyStr.lower rohsTok) = false then
      desc ++ notRohsTok
    else
      PyStr.replaceAll rohsTok [] desc
  let d2 := PyStr.replaceAll cat2 [] d1
  let d3 := PyStr.replaceAll pkg [] d2
  PyStr.strip (collapseWs d3)

/-! ### The translator and the batch loop -/

/-- One row of the source `components` table, with the price payload already
taken through `json.loads`/`PriceEntry.Parse` and the `extra` payload
through `json.loads` (see `ExtraPayload`). -/
structure RawComponent where
  lcsc : Nat
  category_id : Nat
  mfr : Str
  package : Str
  joints : Nat
  manufacturer_id : Nat
  basic : Bool
  preferred : Bool
  description : Str
  datasheet : Str
  stock : Nat
  price : List PriceEntry
  extra : ExtraPayload
deriving DecidableEq

/-- One row written into the destination `parts` FTS table. -/
structure PartRow where
  lcsc_part : Str
  first_category : Str
  second_category : Str
  mfr_part : Str
  package : Str
  solder_joint : Nat
  manufacturer : Str
  library_type : Str
  description : Str
  datasheet : Str
  price : Str
  stock : Str
deriving DecidableEq

/-- The in-memory lookup dictionaries (`mans`, `cats`): missing key is a
`KeyError`, i.e. `none`. -/
def lookupNat : List (Nat × α) → Nat → Option α
  | [], _ => none
  | (k, v) :: rest, key => if k = key then some v else lookupNat rest key

/-- `Generate.library_type`. -/
def libraryType (basic preferred : Bool) : Str :=
  if basic then strOf (r"Basic")
  else if preferred then strOf (r"Preferred")
  else strOf (r"Extended")

/-- The price token `f"{min}-{max or ''}:{price}"`. -/
def renderPriceEntry (e : PriceEntry) : Str :=
  natStr e.min_quantity ++ '-' :: ((e.max_quantity.map natStr).getD []) ++
    ':' :: e.price_dollars_str

/-- Python `",".join`. -/
def joinComma : List Str → Str
  | [] => []
  | [s] => s
  | s :: s' :: rest => s ++ ',' :: joinComma (s' :: rest)

/-- The serialized compact price list string. -/
def priceListStr (entries : List PriceEntry) : Str :=
  joinComma (entries.map renderPriceEntry)

/-- The per-component body of the batch loop: the three-stage price pipeline
with cutoff 0.01, description resolution and cleanup, the library tier and
the twelve-field row.  A missing category or manufacturer id raises
(`none`). -/
def translateComponent (mans : List (Nat × Str)) (cats : List (Nat × (Str × Str)))
    (c : RawComponent) : Option PartRow :=
  let pe1 := Price.reduce_precision c.price
  let pe2 := Price.filter_below_cutoff pe1 (1/100)
  let pe3 := Price.filter_duplicate_prices pe2
  match lookupNat cats c.category_id with
  | none => none
  | some cat =>
    match lookupNat mans c.manufacturer_id with
    | none => none
    | some manName =>
      some
        { lcsc_part := 'C' :: natStr c.lcsc
          first_category := cat.1
          second_category := cat.2
          mfr_part := c.mfr
          package := c.package
          solder_joint := c.joints
          manufacturer := manName
          library_type := libraryType c.basic c.preferred
          description :=
            cleanupDescription (resolveDescription c.description c.extra) cat.2 c.package
          datasheet := c.datasheet
          price := priceListStr pe3
          stock := natStr c.stock }

/-- Translate one fetched batch; the first failing row aborts the batch
before anything is inserted. -/
def translateBatch (mans : List (Nat × Str)) (cats : List (Nat × (Str × Str))) :
    List RawComponent → Option (List PartRow)
  | [] => some []
  | c :: rest =>
    match translateComponent mans cats c, translateBatch mans cats rest with
    | some row, some rows => some (row :: rows)
    | _, _ => none

/-- The summary counters of `load_tables`. -/
structure LoadStats where
  price_entries_total : Nat
  price_entries_deleted_total : Nat
  price_entries_duplicates_deleted_total : Nat
  part_count : Nat
deriving DecidableEq

/-- Zero counters. -/
def zeroStats : LoadStats := ⟨0, 0, 0, 0⟩

/-- Pointwise sum of counters. -/
def addStats (s t : LoadStats) : LoadStats :=
  ⟨s.price_entries_total + t.price_entries_total,
    s.price_entries_deleted_total + t.price_entries_deleted_total,
    s.price_entries_duplicates_deleted_total + t.price_entries_duplicates_deleted_total,
    s.part_count + t.part_count⟩

/-- The counter increments contributed by one component: entries after
precision reduction, entries dropped by the cutoff filter plus entries
dropped by the duplicate merge, duplicate-merge drops alone, and one part. -/
def statsOfComp (c : RawComponent) : LoadStats :=
  let pe1 := Price.reduce_precision c.price
  let pe2 := Price.filter_below_cutoff pe1 (1/100)
  let pe3 := Price.filter_duplicate_prices pe2
  ⟨pe1.length,
    (pe1.length - pe2.length) + (pe2.length - pe3.length),
    pe2.length - pe3.length,
    1⟩

/-- Counter increments of a list of components. -/
def statsOfComps (comps : List RawComponent) : LoadStats :=
  comps.foldr (fun c s => addStats (statsOfComp c) s) zeroStats

/-- Result of a run of the batch loop: the committed rows of the destination
`parts` table, whether the run completed, and the summary counters of the
completed batches. -/
structure LoadResult where
  written : List PartRow
  ok : Bool
  stats : LoadStats
deriving DecidableEq

/-- The `while True` loop of `load_tables`: translate a batch, insert it and
commit, move on; a failing row aborts the run with everything already
committed kept and nothing of the failing batch written. -/
def runBatches (mans : List (Nat × Str)) (cats : List (Nat × (Str × Str))) :
    List (List RawComponent) → LoadResult
  | [] => ⟨[], true, zeroStats⟩
  | b :: bs =>
    match translateBatch mans cats b with
    | none => ⟨[], false, zeroStats⟩
    | some rows =>
      let r := runBatches mans cats bs
      ⟨rows ++ r.written, r.ok, addStats (statsOfComps b) r.stats⟩

/-- Walk the remaining elements with the capacity left in the open batch
(`acc`, reversed); a full batch is emitted and a fresh one opened. -/
def chunkGo (n : Nat) : List α → Nat → List α → List (List α)
  | [], _, acc => [acc.reverse]
  | x :: xs, 0, acc => acc.reverse :: chunkGo n xs (n - 1) [x]
  | x :: xs, k + 1, acc => chunkGo n xs k (x :: acc)

/-- Split a list into consecutive batches of `n` (`fetchmany(size=n)` until
exhausted; positive `n` is assumed by the claims). -/
def chunkList (n : Nat) (l : List α) : List (List α) :=
  match l with
  | [] => []
  | x :: xs => chunkGo n xs (n - 1) [x]

/-- `load_tables` over an already-fetched component list, parameterised by
the fetch batch size. -/
def loadTables (mans : List (Nat × Str)) (cats : List (Nat × (Str × Str)))
    (batchSize : Nat) (comps : List RawComponent) : LoadResult :=
  runBatches mans cats (chunkList batchSize comps)

/-! ### The category index -/

/-- The category pair of a written row. -/
def catOfRow (r : PartRow) : Str × Str := (r.first_category, r.second_category)

/-- SQLite `UPPER` (ASCII-only case folding). -/
def upKey (s : Str) : Str := s.map Char.toUpper

/-- Case-insensitive ordering of category pairs: by upper-cased first
category, then upper-cased second category. -/
def catLe (a b : Str × Str) : Prop :=
  upKey a.1 < upKey b.1 ∨ (upKey a.1 = upKey b.1 ∧ upKey a.2 ≤ upKey b.2)

instance : DecidableRel catLe := fun _ _ => by
  unfold catLe; infer_instance

instance : IsTotal (Str × Str) catLe where
  total a b := by
    rcases lt_trichotomy (upKey a.1) (upKey b.1) with h | h | h
    · exact Or.inl (Or.inl h)
    · rcases le_total (upKey a.2) (upKey b.2) with h' | h'
      · exact Or.inl (Or.inr ⟨h, h'⟩)
      · exact Or.inr (Or.inr ⟨h.symm, h'⟩)
    · exact Or.inr (Or.inl h)

instance : IsTrans (Str × Str) catLe where
  trans a b c hab hbc := by
    rcases hab with h1 | ⟨h1, h1'⟩
    · rcases hbc with h2 | ⟨h2, h2'⟩
      · exact Or.inl (lt_trans h1 h2)
      · exact Or.inl (h2 ▸ h1)
    · rcases hbc with h2 | ⟨h2, h2'⟩
      · exact Or.inl (by rw [h1]; exact h2)
      · exact Or.inr ⟨h1.trans h2, le_trans h1' h2'⟩

/-- `Generate.populate_categories`, i.e. the semantics of
`INSERT INTO categories SELECT DISTINCT "First Category", "Second Category"
FROM parts ORDER BY UPPER("First Category"), UPPER("Second Category")`:
the distinct category pairs of the written rows, sorted case-insensitively
by first and then second category. -/
def populate_categories (parts : List PartRow) : List (Str × Str) :=
  List.insertionSort catLe (parts.map catOfRow).dedup

/-! ### Concrete fixtures -/

/-- The single high-precision entry of `test_price_precision_reduce`. -/
def entry123 : PriceEntry :=
  ⟨1, some 100, strOf (r"0.123456789"), (123456789 : ℚ) / 1000000000⟩

/-- The seven entries of `test_price_duplicate_price_filter`. -/
def test7 : List PriceEntry :=
  [⟨1, some 100, strOf (r"0.4"), (4 : ℚ) / 10⟩,
   ⟨101, some 200, strOf (r"0.3"), (3 : ℚ) / 10⟩,
   ⟨201, some 300, strOf (r"0.2"), (2 : ℚ) / 10⟩,
   ⟨301, some 400, strOf (r"0.1"), (1 : ℚ) / 10⟩,
   ⟨401, some 500, strOf (r"0.1"), (1 : ℚ) / 10⟩,
   ⟨501, some 600, strOf (r"0.1"), (1 : ℚ) / 10⟩,
   ⟨601, none, strOf (r"0.1"), (1 : ℚ) / 10⟩]

/-- The merged four entries the test expects. -/
def expected4 : List PriceEntry :=
  [⟨1, some 100, strOf (r"0.4"), (4 : ℚ) / 10⟩,
   ⟨101, some 200, strOf (r"0.3"), (3 : ℚ) / 10⟩,
   ⟨201, some 300, strOf (r"0.2"), (2 : ℚ) / 10⟩,
   ⟨301, none, strOf (r"0.1"), (1 : ℚ) / 10⟩]

/-- A description with an interior double space and a compliance token. -/
def descDoubleSpace : Str := strOf (r"Widget  Maker ROHS")

/-- A second-category label that occurs in no fixture description. -/
def catQ : Str := strOf (r"QQ")

/-- A package name that occurs in no fixture description. -/
def pkgZ : Str := strOf (r"ZZ")

/-- A plain description without the compliance token. -/
def descPlain : Str := strOf (r"Widget")

/-- A description containing the token case-insensitively but not in the
exact case the replacement removes. -/
def descLowerRohs : Str := strOf (r"Widget rohs")

/-- A well-formed component whose ids resolve in `mans1`/`cats1`. -/
def compGood : RawComponent :=
  { lcsc := 7
    category_id := 5
    mfr := strOf (r"M-1")
    package := strOf (r"P1")
    joints := 2
    manufacturer_id := 1
    basic := true
    preferred := false
    description := strOf (r"Widget")
    datasheet := strOf (r"dsheet")
    stock := 3
    price := []
    extra := ExtraPayload.absent }

/-- A component whose category id is missing from `cats1`. -/
def compBadCat : RawComponent :=
  { compGood with category_id := 99 }

/-- Manufacturer lookup fixture. -/
def mans1 : List (Nat × Str) := [(1, strOf (r"MakerOne"))]

/-- Category lookup fixture. -/
def cats1 : List (Nat × (Str × Str)) := [(5, (strOf (r"CatA"), strOf (r"CatB")))]

/-- Twenty-five well-formed components. -/
def comps25 : List RawComponent := List.replicate 25 compGood

/-! ## Theorems -/

namespace Price

theorem mergeRun_single (a : PriceEntry) : mergeRun [a] = a := by
  simp [mergeRun]

theorem filterDupSpec_nil : filterDupSpec [] = [] := by
  simp [filterDupSpec, chunkRuns]

theorem filterDupSpec_single (e : PriceEntry) : filterDupSpec [e] = [e] := by
  simp [filterDupSpec, chunkRuns, mergeRun_single]

theorem filterDupSpec_merge_step (f x : PriceEntry) (xs : List PriceEntry)
    (h : f.price_dollars_str = x.price_dollars_str) :
    filterDupSpec (f :: x :: xs) =
      filterDupSpec ({ f with max_quantity := x.max_quantity } :: xs) := by
  have hx : ({ f with max_quantity := x.max_quantity } : PriceEntry).price_dollars_str
      = f.price_dollars_str := rfl
  unfold filterDupSpec
  rw [chunkRuns, chunkRuns]
  simp only [hx, List.takeWhile_cons, List.dropWhile_cons, h.symm, decide_eq_true_eq,
    if_true, if_pos rfl, List.map_cons]
  congr 1
  cases ht : xs.takeWhile fun y => decide (y.price_dollars_str = f.price_dollars_str) with
  | nil => simp [mergeRun]
  | cons y t =>
    simp only [mergeRun, List.getLastD_cons, List.getLastD]
    cases hz : (y :: t).getLast? with
    | none => simp at hz
    | some z => rfl

theorem filterDupSpec_flush_step (f x : PriceEntry) (xs : List PriceEntry)
    (h : ¬ f.price_dollars_str = x.price_dollars_str) :
    filterDupSpec (f :: x :: xs) = f :: filterDupSpec (x :: xs) := by
  have hx : ¬ (x.price_dollars_str = f.price_dollars_str) := fun hh => h hh.symm
  unfold filterDupSpec
  rw [chunkRuns]
  simp only [List.takeWhile_cons, List.dropWhile_cons, hx, decide_eq_true_eq,
    if_false, mergeRun_single, List.map_cons]

theorem dedupLoop_eq (rest : List PriceEntry) :
    ∀ (f : PriceEntry) (acc : List PriceEntry),
      dedupLoop f rest acc = acc ++ filterDupSpec (f :: rest) := by
  induction rest with
  | nil =>
    intro f acc
    simp [dedupLoop, filterDupSpec_single]
  | cons x xs ih =>
    intro f acc
    by_cases h : f.price_dollars_str = x.price_dollars_str
    · rw [dedupLoop, if_pos h, ih, filterDupSpec_merge_step f x xs h]
    · rw [dedupLoop, if_neg h, ih, filterDupSpec_flush_step f x xs h]
      simp

theorem filter_duplicate_prices_eq_spec (entries : List PriceEntry) :
    filter_duplicate_prices entries = filterDupSpec entries := by
  match entries with
  | [] => simp [filter_duplicate_prices, filterDupSpec_nil]
  | [e] => simp [filter_duplicate_prices, filterDupSpec_single]
  | e :: x :: xs =>
    rw [filter_duplicate_prices, dedupLoop_eq]
    simp

end Price

theorem setLastMaxNone_eq_append :
    ∀ (l : List PriceEntry) (h : l ≠ []),
      Price.setLastMaxNone l
        = l.dropLast ++ [{ l.getLast h with max_quantity := none }]
  | [], h => absurd rfl h
  | [_], _ => rfl
  | e :: e' :: rest, _ => by
    rw [Price.setLastMaxNone, setLastMaxNone_eq_append (e' :: rest) (by simp)]
    rw [List.dropLast_cons₂, List.getLast_cons_cons]
    simp

theorem setLastMaxNone_map_key (l : List PriceEntry) :
    (Price.setLastMaxNone l).map keyOfEntry = l.map keyOfEntry := by
  cases hl : l with
  | nil => rfl
  | cons a as =>
    rw [setLastMaxNone_eq_append (a :: as) (by simp)]
    have hkey : keyOfEntry { (a :: as).getLast (by simp) with max_quantity := none }
        = keyOfEntry ((a :: as).getLast (by simp)) := rfl
    calc ((a :: as).dropLast ++ [{ (a :: as).getLast (by simp) with max_quantity := none }]).map keyOfEntry
        = (a :: as).dropLast.map keyOfEntry ++ [keyOfEntry ((a :: as).getLast (by simp))] := by
          simp [hkey]
      _ = ((a :: as).dropLast ++ [(a :: as).getLast (by simp)]).map keyOfEntry := by simp
      _ = (a :: as).map keyOfEntry := by rw [List.dropLast_append_getLast]

theorem setLastMaxNone_price_mem (l : List PriceEntry) (x : PriceEntry)
    (hx : x ∈ Price.setLastMaxNone l) : ∃ y ∈ l, x.price_dollars = y.price_dollars := by
  cases hl : l with
  | nil => rw [hl] at hx; simp [Price.setLastMaxNone] at hx
  | cons a as =>
    rw [hl] at hx
    rw [setLastMaxNone_eq_append (a :: as) (by simp)] at hx
    rcases List.mem_append.mp hx with hmem | hmem
    · exact ⟨x, List.dropLast_subset _ hmem, rfl⟩
    · rcases List.mem_singleton.mp hmem with rfl
      exact ⟨(a :: as).getLast (by simp), List.getLast_mem _, rfl⟩

theorem setLastMaxNone_getLast? (l : List PriceEntry) (h : l ≠ []) :
    ∃ z, (Price.setLastMaxNone l).getLast? = some z ∧ z.max_quantity = none := by
  refine ⟨{ l.getLast h with max_quantity := none }, ?_, rfl⟩
  rw [setLastMaxNone_eq_append l h, List.getLast?_concat]

/-- C1: `filter_below_cutoff` maps the empty list to the empty list; on a
non-empty list it returns a non-empty list whose head carries the first
input entry's quantity and price fields regardless of that price, in which
every entry after the first has price at least the cutoff, which retains
exactly the later input entries with price at least the cutoff in order
(identified by their `max_quantity`-independent fields, since the last
retained entry is forced open-ended), and whose last entry has
`max_quantity = none`. -/
theorem c1_filter_below_cutoff :
    (∀ cutoff : ℚ, Price.filter_below_cutoff [] cutoff = [])
    ∧ ∀ (cutoff : ℚ) (e0 : PriceEntry) (rest : List PriceEntry),
        ∃ (h : PriceEntry) (t : List PriceEntry),
          Price.filter_below_cutoff (e0 :: rest) cutoff = h :: t
          ∧ h.min_quantity = e0.min_quantity
          ∧ h.price_dollars_str = e0.price_dollars_str
          ∧ h.price_dollars = e0.price_dollars
          ∧ (∀ x ∈ t, cutoff ≤ x.price_dollars)
          ∧ t.map keyOfEntry
              = (rest.filter fun x => decide (cutoff ≤ x.price_dollars)).map keyOfEntry
          ∧ ∃ z, (h :: t).getLast? = some z ∧ z.max_quantity = none := by
  constructor
  · intro cutoff
    rfl
  · intro cutoff e0 rest
    cases hF : rest.filter fun x => decide (cutoff ≤ x.price_dollars) with
    | nil =>
      refine ⟨{ e0 with max_quantity := none }, [], ?_, rfl, rfl, rfl, ?_, ?_, ?_⟩
      · show Price.setLastMaxNone
          (e0 :: rest.filter fun x => decide (cutoff ≤ x.price_dollars)) = _
        rw [hF]
        rfl
      · intro x hx
        simp at hx
      · simp [hF]
      · exact ⟨{ e0 with max_quantity := none }, rfl, rfl⟩
    | cons f1 F' =>
      refine ⟨e0, Price.setLastMaxNone (f1 :: F'), ?_, rfl, rfl, rfl, ?_, ?_, ?_⟩
      · show Price.setLastMaxNone
          (e0 :: rest.filter fun x => decide (cutoff ≤ x.price_dollars)) = _
        rw [hF]
        rfl
      · intro x hx
        obtain ⟨y, hy, hxy⟩ := setLastMaxNone_price_mem (f1 :: F') x hx
        rw [hxy]
        have hyF : y ∈ rest.filter fun x => decide (cutoff ≤ x.price_dollars) := by
          rw [hF]; exact hy
        have := List.of_mem_filter hyF
        simpa using this
      · rw [setLastMaxNone_map_key]
      · rw [setLastMaxNone_eq_append (f1 :: F') (by simp)]
        refine ⟨{ (f1 :: F').getLast (by simp) with max_quantity := none }, ?_, rfl⟩
        rw [show e0 :: ((f1 :: F').dropLast
              ++ [{ (f1 :: F').getLast (by simp) with max_quantity := none }])
            = (e0 :: (f1 :: F').dropLast)
              ++ [{ (f1 :: F').getLast (by simp) with max_quantity := none }] from rfl,
          List.getLast?_concat]

/-- C2: `filter_duplicate_prices` merges exactly the maximal runs of
consecutive entries sharing one canonical price string, each run becoming
its first entry carrying the run's last `max_quantity`; empty and
singleton lists pass through unchanged; on the seven-entry fixture it
yields the expected four entries, the last having price string "0.1" and
open-ended `max_quantity`. -/
theorem c2_filter_duplicate_prices :
    (∀ entries : List PriceEntry,
        Price.filter_duplicate_prices entries = Price.filterDupSpec entries)
    ∧ Price.filter_duplicate_prices [] = []
    ∧ (∀ e : PriceEntry, Price.filter_duplicate_prices [e] = [e])
    ∧ Price.filter_duplicate_prices test7 = expected4
    ∧ (Price.filter_duplicate_prices test7).length = 4
    ∧ (Price.filter_duplicate_prices test7).getLast?
        = some ⟨301, none, strOf (r"0.1"), (1 : ℚ) / 10⟩ :=
  ⟨Price.filter_duplicate_prices_eq_spec, rfl, fun _ => rfl,
    by decide, by decide, by decide⟩

/-! ### Digit strings -/

theorem charDigitVal_digitC {d : Nat} (hd : d < 10) : charDigitVal (digitC d) = d := by
  interval_cases d <;> decide

theorem isDigit_digitC {d : Nat} (hd : d < 10) : (digitC d).isDigit = true := by
  interval_cases d <;> decide

theorem natStr_ne_nil (n : Nat) : natStr n ≠ [] := by
  unfold natStr
  split
  · simp
  next h =>
    have hd : Nat.digits 10 n ≠ [] := Nat.digits_ne_nil_iff_ne_zero.mpr h
    simpa using hd

theorem natStr_all_digits (n : Nat) : ∀ c ∈ natStr n, c.isDigit = true := by
  unfold natStr
  split
  · intro c hc
    simp only [List.mem_singleton] at hc
    subst hc
    decide
  · intro c hc
    simp only [List.mem_map, List.mem_reverse] at hc
    obtain ⟨d, hd, rfl⟩ := hc
    exact isDigit_digitC (Nat.digits_lt_base (by norm_num) hd)

theorem natVal_append (s : Str) (c : Char) :
    natVal (s ++ [c]) = 10 * natVal s + charDigitVal c := by
  unfold natVal
  rw [List.foldl_append]
  rfl

theorem natVal_revmap (L : List Nat) (hL : ∀ d ∈ L, d < 10) :
    natVal (L.reverse.map digitC) = Nat.ofDigits 10 L := by
  induction L with
  | nil => rfl
  | cons d L ih =>
    have hd := hL d (by simp)
    rw [List.reverse_cons, List.map_append]
    simp only [List.map_cons, List.map_nil]
    rw [natVal_append, ih (fun x hx => hL x (by simp [hx])), charDigitVal_digitC hd,
      Nat.ofDigits_cons]
    omega

theorem natVal_natStr (n : Nat) : natVal (natStr n) = n := by
  unfold natStr
  split
  · next h => rw [h]; decide
  · rw [natVal_revmap _ (fun d hd => Nat.digits_lt_base (by norm_num) hd),
      Nat.ofDigits_digits]

theorem takeWhile_append_eq (p : Char → Bool) (l1 l2 : Str) (c : Char)
    (h1 : ∀ a ∈ l1, p a = true) (hc : p c = false) :
    (l1 ++ c :: l2).takeWhile p = l1 ∧ (l1 ++ c :: l2).dropWhile p = c :: l2 := by
  induction l1 with
  | nil => simp [List.takeWhile_cons, List.dropWhile_cons, hc]
  | cons a l ih =>
    have ha := h1 a (by simp)
    have ih' := ih fun x hx => h1 x (by simp [hx])
    simp [List.takeWhile_cons, List.dropWhile_cons, ha, ih'.1, ih'.2]

/-! ### Rounding -/

theorem round3i_nonneg {q : ℚ} (hq : 0 ≤ q) : 0 ≤ round3i q := by
  unfold round3i roundHalfEven
  have hx : (0 : ℚ) ≤ 1000 * q := by positivity
  have hf : (0 : ℤ) ≤ ⌊(1000 : ℚ) * q⌋ := Int.floor_nonneg.mpr hx
  split
  · exact hf
  split
  · omega
  split <;> omega

theorem round3i_nonpos {q : ℚ} (hq : q < 0) : round3i q ≤ 0 := by
  unfold round3i roundHalfEven
  have hx : (1000 : ℚ) * q < 0 := by
    have h1000 : (0 : ℚ) < 1000 := by norm_num
    exact mul_neg_of_pos_of_neg h1000 hq
  have hf : ⌊(1000 : ℚ) * q⌋ < 0 := by
    rw [Int.floor_lt]
    exact_mod_cast hx
  split
  · omega
  split
  · omega
  split <;> omega

theorem isHalfEven3_round3 (q : ℚ) : IsHalfEven3 q (round3 q) := by
  refine ⟨round3i q, rfl, ?_⟩
  have key : |q - ((round3i q : ℤ) : ℚ) / 1000| = |1000 * q - (round3i q : ℚ)| / 1000 := by
    have hq : q - ((round3i q : ℤ) : ℚ) / 1000 = (1000 * q - (round3i q : ℚ)) / 1000 := by
      ring
    rw [hq, abs_div]
    norm_num
  have hfl : (⌊(1000 : ℚ) * q⌋ : ℚ) ≤ 1000 * q := Int.floor_le _
  have hfu : 1000 * q < (⌊(1000 : ℚ) * q⌋ : ℚ) + 1 := Int.lt_floor_add_one _
  unfold round3
  rw [key]
  unfold round3i roundHalfEven
  split
  next hlt =>
    left
    rw [abs_of_nonneg (by linarith)]
    rw [div_lt_div_iff₀ (by norm_num : (0 : ℚ) < 1000) (by norm_num : (0 : ℚ) < 2000)]
    linarith
  next hge =>
    have hge' : (1 : ℚ) / 2 ≤ 1000 * q - ⌊(1000 : ℚ) * q⌋ := le_of_not_lt hge
    split
    next hgt =>
      left
      push_cast
      rw [abs_of_nonpos (by linarith)]
      rw [div_lt_div_iff₀ (by norm_num : (0 : ℚ) < 1000) (by norm_num : (0 : ℚ) < 2000)]
      linarith
    next hle =>
      have heq : 1000 * q - (⌊(1000 : ℚ) * q⌋ : ℚ) = 1/2 :=
        le_antisymm (le_of_not_lt hle) hge'
      split
      next heven =>
        right
        refine ⟨?_, heven⟩
        rw [abs_of_nonneg (by linarith), heq]
        norm_num
      next hodd =>
        right
        refine ⟨?_, by omega⟩
        push_cast
        rw [abs_of_nonpos (by linarith)]
        rw [show -(1000 * q - ((⌊(1000 : ℚ) * q⌋ : ℚ) + 1))
            = 1 - (1000 * q - ⌊(1000 : ℚ) * q⌋) by ring, heq]
        norm_num
theorem isDigit_ne_dash {c : Char} (h : c.isDigit = true) : c ≠ '-' := by
  intro hc
  subst hc
  exact absurd h (by decide)

theorem isDigit_ne_dot {c : Char} (h : c.isDigit = true) : c ≠ '.' := by
  intro hc
  subst hc
  exact absurd h (by decide)

theorem natVal_three {x y z : Nat} (hx : x < 10) (hy : y < 10) (hz : z < 10) :
    natVal [digitC x, digitC y, digitC z] = 100 * x + 10 * y + z := by
  unfold natVal
  simp only [List.foldl_cons, List.foldl_nil]
  rw [charDigitVal_digitC hx, charDigitVal_digitC hy, charDigitVal_digitC hz]
  ring

theorem parse3core_shape (c0 : Char) (cs : Str) (a b c : Char)
    (hipd : ∀ x ∈ c0 :: cs, x.isDigit = true)
    (ha : a.isDigit = true) (hb : b.isDigit = true) (hc : c.isDigit = true) :
    parse3core ((c0 :: cs) ++ '.' :: [a, b, c])
      = some ((natVal (c0 :: cs) : ℚ) + (natVal [a, b, c] : ℚ) / 1000) := by
  have hsplit := takeWhile_append_eq Char.isDigit (c0 :: cs) [a, b, c] '.' hipd (by decide)
  unfold parse3core
  rw [hsplit.2]
  rw [hsplit.1]
  split
  next ds hds =>
    have hds' : ds = [a, b, c] := by
      injection hds with h1 h2
      exact h2.symm
    subst hds'
    rw [if_pos ⟨List.cons_ne_nil c0 cs, rfl, by simp [ha, hb, hc]⟩]
  next hno =>
    exact absurd rfl (hno [a, b, c])

theorem parse3_fmt3 (q : ℚ) : parse3 (fmt3 q) = some (round3 q) := by
  have hip : ∀ x ∈ natStr ((round3i q).natAbs / 1000), x.isDigit = true :=
    natStr_all_digits _
  obtain ⟨c0, cs, hcs⟩ :
      ∃ c0 cs, natStr ((round3i q).natAbs / 1000) = c0 :: cs := by
    cases h : natStr ((round3i q).natAbs / 1000) with
    | nil => exact absurd h (natStr_ne_nil _)
    | cons c0 cs => exact ⟨c0, cs, rfl⟩
  rw [hcs] at hip
  have hva : natVal [digitC ((round3i q).natAbs % 1000 / 100),
      digitC ((round3i q).natAbs % 1000 / 10 % 10),
      digitC ((round3i q).natAbs % 1000 % 10)] = (round3i q).natAbs % 1000 := by
    rw [natVal_three (by omega) (by omega) (by omega)]
    omega
  have hvip : natVal (c0 :: cs) = (round3i q).natAbs / 1000 := by
    rw [← hcs]
    exact natVal_natStr _
  have hsum : (((round3i q).natAbs / 1000 : ℕ) : ℚ)
      + (((round3i q).natAbs % 1000 : ℕ) : ℚ) / 1000 = ((round3i q).natAbs : ℚ) / 1000 := by
    have h1 : (1000 * ((round3i q).natAbs / 1000) + (round3i q).natAbs % 1000 : ℕ)
        = (round3i q).natAbs := Nat.div_add_mod _ 1000
    have h2 : ((1000 * ((round3i q).natAbs / 1000) + (round3i q).natAbs % 1000 : ℕ) : ℚ)
        = (((round3i q).natAbs : ℕ) : ℚ) := by exact_mod_cast congrArg Nat.cast h1
    push_cast at h2
    rw [eq_div_iff (by norm_num : (1000 : ℚ) ≠ 0)]
    ring_nf
    ring_nf at h2
    linarith
  have hshape := parse3core_shape c0 cs
    (digitC ((round3i q).natAbs % 1000 / 100))
    (digitC ((round3i q).natAbs % 1000 / 10 % 10))
    (digitC ((round3i q).natAbs % 1000 % 10)) hip
    (isDigit_digitC (by omega)) (isDigit_digitC (by omega)) (isDigit_digitC (by omega))
  by_cases hneg : q < 0
  · have hfmt : fmt3 q = '-' :: ((c0 :: cs) ++ '.' ::
        [digitC ((round3i q).natAbs % 1000 / 100),
         digitC ((round3i q).natAbs % 1000 / 10 % 10),
         digitC ((round3i q).natAbs % 1000 % 10)]) := by
      unfold fmt3
      rw [if_pos hneg, hcs]
      rfl
    rw [hfmt]
    unfold parse3
    simp only [List.head?_cons, List.tail_cons]
    rw [if_pos trivial]
    rw [hshape]
    have hcast : (round3i q : ℚ) = -(((round3i q).natAbs : ℕ) : ℚ) := by
      have hle : round3i q ≤ 0 := round3i_nonpos hneg
      rw [Int.cast_natAbs, abs_of_nonpos hle]
      push_cast
      ring
    unfold round3
    rw [hvip, hva, Option.map_some', hsum, hcast]
    ring_nf
  · have hfmt : fmt3 q = (c0 :: cs) ++ '.' ::
        [digitC ((round3i q).natAbs % 1000 / 100),
         digitC ((round3i q).natAbs % 1000 / 10 % 10),
         digitC ((round3i q).natAbs % 1000 % 10)] := by
      unfold fmt3
      rw [if_neg hneg, hcs]
      rfl
    rw [hfmt]
    unfold parse3
    rw [if_neg (by
      rw [show ((c0 :: cs) ++ '.' :: [digitC ((round3i q).natAbs % 1000 / 100),
          digitC ((round3i q).natAbs % 1000 / 10 % 10),
          digitC ((round3i q).natAbs % 1000 % 10)] : Str).head? = some c0 from rfl]
      simp only [Option.some.injEq]
      exact isDigit_ne_dash (hip c0 (by simp)))]
    rw [hshape]
    have hcast : (round3i q : ℚ) = (((round3i q).natAbs : ℕ) : ℚ) := by
      have hge : 0 ≤ round3i q := round3i_nonneg (le_of_not_lt hneg)
      rw [Int.cast_natAbs, abs_of_nonneg hge]
    unfold round3
    rw [hvip, hva, hsum, hcast]

theorem threeDecimalStr_fmt3 (q : ℚ) : ThreeDecimalStr (fmt3 q) := by
  refine ⟨(if q < 0 then ['-'] else []) ++ natStr ((round3i q).natAbs / 1000),
    digitC ((round3i q).natAbs % 1000 / 100),
    digitC ((round3i q).natAbs % 1000 / 10 % 10),
    digitC ((round3i q).natAbs % 1000 % 10), ?_,
    isDigit_digitC (by omega), isDigit_digitC (by omega), isDigit_digitC (by omega), ?_⟩
  · unfold fmt3
    simp [List.append_assoc]
  · intro hmem
    rcases List.mem_append.mp hmem with hmem | hmem
    · split at hmem
      · simp at hmem
      · simp at hmem
    · exact isDigit_ne_dot (natStr_all_digits _ _ hmem) rfl

/-- C3: `reduce_precision` keeps the number of entries; every output entry's
price string has exactly three decimal digits, the output numeric price
equals the price string parsed as a decimal with exactly three decimal
places, and it is the half-to-even 3-decimal rounding of that entry's
original numeric price; the single-entry fixture with price string
"0.123456789" becomes price string "0.123" with numeric value 0.123. -/
theorem c3_reduce_precision :
    (∀ entries : List PriceEntry,
        (Price.reduce_precision entries).length = entries.length)
    ∧ (∀ (entries : List PriceEntry) (i : Nat) (hi : i < entries.length)
        (hi' : i < (Price.reduce_precision entries).length),
        ThreeDecimalStr ((Price.reduce_precision entries)[i]).price_dollars_str
        ∧ parse3 ((Price.reduce_precision entries)[i]).price_dollars_str
            = some ((Price.reduce_precision entries)[i]).price_dollars
        ∧ IsHalfEven3 entries[i].price_dollars
            ((Price.reduce_precision entries)[i]).price_dollars)
    ∧ Price.reduce_precision [entry123]
        = [⟨1, some 100, strOf (r"0.123"), (123 : ℚ) / 1000⟩] := by
  refine ⟨?_, ?_, by decide⟩
  · intro entries
    simp [Price.reduce_precision]
  · intro entries i hi hi'
    have hget : (Price.reduce_precision entries)[i] = Price.roundEntry entries[i] := by
      simp [Price.reduce_precision]
    rw [hget]
    exact ⟨threeDecimalStr_fmt3 _, parse3_fmt3 _, isHalfEven3_round3 _⟩

/-- Witness for C3 at the fixture entry. -/
theorem c3_reduce_precision_witness :
    ThreeDecimalStr ((Price.reduce_precision [entry123])[0]).price_dollars_str
    ∧ parse3 ((Price.reduce_precision [entry123])[0]).price_dollars_str
        = some ((Price.reduce_precision [entry123])[0]).price_dollars
    ∧ IsHalfEven3 (([entry123] : List PriceEntry)[0]).price_dollars
        ((Price.reduce_precision [entry123])[0]).price_dollars :=
  c3_reduce_precision.2.1 [entry123] 0 (by decide) (by decide)

theorem mutateLastPassing_map_key (cutoff : ℚ) :
    ∀ l : List PriceEntry,
      ((mutateLastPassing cutoff l).2).map keyOfEntry = l.map keyOfEntry := by
  intro l
  induction l with
  | nil => rfl
  | cons x xs ih =>
    rw [mutateLastPassing]
    cases h : mutateLastPassing cutoff xs with
    | mk found xs' =>
      cases found
      · dsimp only
        split
        · rfl
        · rfl
      · dsimp only
        rw [h] at ih
        simp only [List.map_cons]
        rw [ih]

theorem filter_below_cutoff_argAfter_map_key (entries : List PriceEntry) (cutoff : ℚ) :
    (filter_below_cutoff_argAfter entries cutoff).map keyOfEntry
      = entries.map keyOfEntry := by
  cases entries with
  | nil => rfl
  | cons e rest =>
    rw [filter_below_cutoff_argAfter]
    cases h : mutateLastPassing cutoff rest with
    | mk found rest' =>
      cases found
      · dsimp only
        rfl
      · dsimp only
        have hm := mutateLastPassing_map_key cutoff rest
        rw [h] at hm
        simp only [List.map_cons]
        rw [hm]

/-- C10 counterexample: at the fixture entry the three operations do not all
leave the argument unchanged: `reduce_precision` rewrites the entry's
price fields in place and `filter_below_cutoff` clears its
`max_quantity`. -/
theorem c10_counterexample :
    ¬ (reduce_precision_argAfter [entry123] = [entry123]
      ∧ filter_below_cutoff_argAfter [entry123] ((1 : ℚ) / 100) = [entry123]
      ∧ filter_duplicate_prices_argAfter [entry123] = [entry123]) := by
  decide

/-- C10 amended: `filter_duplicate_prices` leaves its argument unchanged;
`reduce_precision` updates the argument in place so that it ends up equal
to the returned list; `filter_below_cutoff` changes only `max_quantity`
fields of the argument's entries (the last retained entry's), preserving
the `min_quantity`, price string and numeric price of every entry, their
order and the length. -/
theorem c10_amended :
    ∀ (entries : List PriceEntry) (cutoff : ℚ),
      filter_duplicate_prices_argAfter entries = entries
      ∧ reduce_precision_argAfter entries = Price.reduce_precision entries
      ∧ (filter_below_cutoff_argAfter entries cutoff).map keyOfEntry
          = entries.map keyOfEntry
      ∧ (filter_below_cutoff_argAfter entries cutoff).length = entries.length := by
  intro entries cutoff
  refine ⟨rfl, rfl, filter_below_cutoff_argAfter_map_key entries cutoff, ?_⟩
  have hlen := congrArg List.length (filter_below_cutoff_argAfter_map_key entries cutoff)
  simpa using hlen

/-- C4: at the concrete failing input the code's cleanup leaves the interior
double space — the collapse step's result is discarded at source line 439
— while the reference composition of the spec collapses it, so the two
disagree. -/
theorem c4_cleanup_double_space :
    cleanupDescription descDoubleSpace catQ pkgZ = strOf (r"Widget  Maker")
    ∧ cleanupSpec descDoubleSpace catQ pkgZ = strOf (r"Widget Maker")
    ∧ cleanupDescription descDoubleSpace catQ pkgZ
        ≠ cleanupSpec descDoubleSpace catQ pkgZ :=
  ⟨by decide, by decide, by decide⟩

/-- C5 counterexample: cleaning the already-cleaned description
"Widget not ROHS" strips the `" ROHS"` suffix of the appended
non-compliance marker, so the cleanup is not idempotent. -/
theorem c5_counterexample :
    cleanupDescription (cleanupDescription descPlain catQ pkgZ) catQ pkgZ
      ≠ cleanupDescription descPlain catQ pkgZ := by
  decide

theorem cleanup_fixpoint (D cat2 pkg : Str)
    (h1 : PyStr.containsSub (PyStr.lower D) (PyStr.lower rohsTok) = true)
    (h2 : PyStr.replaceAll rohsTok [] D = D)
    (h3 : PyStr.replaceAll cat2 [] D = D)
    (h4 : PyStr.replaceAll pkg [] D = D)
    (h5 : PyStr.strip D = D) :
    cleanupDescription D cat2 pkg = D := by
  unfold cleanupDescription
  rw [h1]
  simp only [Bool.true_eq_false, if_false]
  rw [h2, h3, h4, h5]

/-- C5 amended: the cleanup is not idempotent in general (see the
counterexample, where the second pass mangles the appended marker); it is
idempotent on every cleaned description that still contains the
compliance token case-insensitively and is fixed by the exact-case
`" ROHS"` removal, the second-category removal, the package removal and
the strip: a second cleanup returns such a description unchanged. -/
theorem c5_cleanup_idempotent_cond (d cat2 pkg : Str)
    (h1 : PyStr.containsSub (PyStr.lower (cleanupDescription d cat2 pkg))
        (PyStr.lower rohsTok) = true)
    (h2 : PyStr.replaceAll rohsTok [] (cleanupDescription d cat2 pkg)
        = cleanupDescription d cat2 pkg)
    (h3 : PyStr.replaceAll cat2 [] (cleanupDescription d cat2 pkg)
        = cleanupDescription d cat2 pkg)
    (h4 : PyStr.replaceAll pkg [] (cleanupDescription d cat2 pkg)
        = cleanupDescription d cat2 pkg)
    (h5 : PyStr.strip (cleanupDescription d cat2 pkg) = cleanupDescription d cat2 pkg) :
    cleanupDescription (cleanupDescription d cat2 pkg) cat2 pkg
      = cleanupDescription d cat2 pkg :=
  cleanup_fixpoint _ _ _ h1 h2 h3 h4 h5

/-- Witness for the amended C5 on a cleaned description that keeps a
lower-case compliance token. -/
theorem c5_cleanup_idempotent_cond_witness :
    cleanupDescription (cleanupDescription descLowerRohs catQ pkgZ) catQ pkgZ
      = cleanupDescription descLowerRohs catQ pkgZ :=
  c5_cleanup_idempotent_cond descLowerRohs catQ pkgZ
    (by decide) (by decide) (by decide) (by decide) (by decide)

/-- C6 counterexample: a metadata object carrying only the fallback key
`describe` does not override the description in the code, though the
claimed primary-then-fallback lookup would. -/
theorem c6_counterexample :
    resolveDescription (strOf (r"raw")) (ExtraPayload.dict [(describeKey, strOf (r"X"))])
      = strOf (r"raw")
    ∧ resolveDescriptionSpec (strOf (r"raw"))
        (ExtraPayload.dict [(describeKey, strOf (r"X"))]) = strOf (r"X")
    ∧ resolveDescription (strOf (r"raw")) (ExtraPayload.dict [(describeKey, strOf (r"X"))])
      ≠ resolveDescriptionSpec (strOf (r"raw"))
          (ExtraPayload.dict [(describeKey, strOf (r"X"))]) :=
  ⟨by decide, by decide, by decide⟩

/-- C6 amended: description resolution is total (never raises): an absent,
malformed or non-object payload, and an object without the `description`
key, leave the raw description unchanged; an object with the
`description` key overrides it with that value; only this primary key is
consulted, with no fallback. -/
theorem c6_resolve_description :
    ∀ (raw : Str) (es : List (Str × Str)),
      resolveDescription raw ExtraPayload.absent = raw
      ∧ resolveDescription raw ExtraPayload.malformed = raw
      ∧ resolveDescription raw ExtraPayload.nonDict = raw
      ∧ (lookupAssoc es descKey = none
          → resolveDescription raw (ExtraPayload.dict es) = raw)
      ∧ ∀ v, lookupAssoc es descKey = some v
          → resolveDescription raw (ExtraPayload.dict es) = v := by
  intro raw es
  refine ⟨rfl, rfl, rfl, ?_, ?_⟩
  · intro h
    simp [resolveDescription, h]
  · intro v h
    simp [resolveDescription, h]

/-- Witness for the amended C6: an object with the primary key overrides. -/
theorem c6_resolve_description_witness :
    lookupAssoc [(descKey, strOf (r"X"))] descKey = some (strOf (r"X"))
    ∧ resolveDescription (strOf (r"raw")) (ExtraPayload.dict [(descKey, strOf (r"X"))])
        = strOf (r"X") :=
  ⟨by decide,
    (c6_resolve_description (strOf (r"raw")) [(descKey, strOf (r"X"))]).2.2.2.2 _ (by decide)⟩

/-! ### The batch loop -/

theorem translateComponent_none_of_bad (mans : List (Nat × Str))
    (cats : List (Nat × (Str × Str))) (c : RawComponent)
    (h : lookupNat cats c.category_id = none
      ∨ lookupNat mans c.manufacturer_id = none) :
    translateComponent mans cats c = none := by
  rcases h with h | h
  · simp [translateComponent, h]
  · cases hc : lookupNat cats c.category_id with
    | none => simp [translateComponent, hc]
    | some cat => simp [translateComponent, hc, h]

theorem translateBatch_eq_some (mans : List (Nat × Str))
    (cats : List (Nat × (Str × Str))) (b : List RawComponent)
    (h : ∀ c ∈ b, translateComponent mans cats c ≠ none) :
    translateBatch mans cats b
      = some (b.filterMap (translateComponent mans cats)) := by
  induction b with
  | nil => rfl
  | cons c rest ih =>
    obtain ⟨row, hrow⟩ : ∃ row, translateComponent mans cats c = some row := by
      cases hc : translateComponent mans cats c with
      | none => exact absurd hc (h c (by simp))
      | some row => exact ⟨row, rfl⟩
    rw [translateBatch, hrow, ih fun x hx => h x (by simp [hx])]
    simp [List.filterMap_cons, hrow]

theorem translateBatch_eq_none (mans : List (Nat × Str))
    (cats : List (Nat × (Str × Str))) (b : List RawComponent)
    (h : ∃ c ∈ b, translateComponent mans cats c = none) :
    translateBatch mans cats b = none := by
  induction b with
  | nil => simp at h
  | cons c rest ih =>
    rcases h with ⟨x, hx, hnone⟩
    rcases List.mem_cons.mp hx with rfl | hmem
    · rw [translateBatch, hnone]
    · rw [translateBatch, ih ⟨x, hmem, hnone⟩]
      cases translateComponent mans cats c <;> rfl

theorem addStats_zero_left (s : LoadStats) : addStats zeroStats s = s := by
  cases s
  simp [addStats, zeroStats]

theorem addStats_assoc (a b c : LoadStats) :
    addStats (addStats a b) c = addStats a (addStats b c) := by
  cases a
  cases b
  cases c
  simp [addStats, Nat.add_assoc]

theorem foldr_addStats_init (l : List RawComponent) (X : LoadStats) :
    l.foldr (fun c s => addStats (statsOfComp c) s) X
      = addStats (statsOfComps l) X := by
  induction l with
  | nil => exact (addStats_zero_left X).symm
  | cons c rest ih =>
    simp only [List.foldr_cons, ih]
    rw [show statsOfComps (c :: rest)
        = addStats (statsOfComp c) (statsOfComps rest) from rfl]
    rw [addStats_assoc]

theorem statsOfComps_append (l1 l2 : List RawComponent) :
    statsOfComps (l1 ++ l2) = addStats (statsOfComps l1) (statsOfComps l2) := by
  unfold statsOfComps
  rw [List.foldr_append]
  exact foldr_addStats_init l1 _

theorem statsOfComps_part_count (comps : List RawComponent) :
    (statsOfComps comps).part_count = comps.length := by
  induction comps with
  | nil => rfl
  | cons c rest ih =>
    rw [show statsOfComps (c :: rest)
        = addStats (statsOfComp c) (statsOfComps rest) from rfl]
    simp [addStats, statsOfComp, ih]
    omega

theorem runBatches_ok (mans : List (Nat × Str)) (cats : List (Nat × (Str × Str)))
    (bs : List (List RawComponent))
    (h : ∀ c ∈ bs.flatten, translateComponent mans cats c ≠ none) :
    runBatches mans cats bs
      = ⟨bs.flatten.filterMap (translateComponent mans cats), true,
          statsOfComps bs.flatten⟩ := by
  induction bs with
  | nil => rfl
  | cons b rest ih =>
    have hb : ∀ c ∈ b, translateComponent mans cats c ≠ none := fun c hc =>
      h c (by simp [hc])
    have hrest : ∀ c ∈ rest.flatten, translateComponent mans cats c ≠ none :=
      fun c hc => h c (by simp [hc])
    rw [runBatches, translateBatch_eq_some mans cats b hb]
    dsimp only
    rw [ih hrest]
    rw [show (b :: rest).flatten = b ++ rest.flatten from rfl]
    rw [List.filterMap_append, statsOfComps_append]

theorem chunkGo_flatten (n : Nat) :
    ∀ (xs : List α) (k : Nat) (acc : List α),
      (chunkGo n xs k acc).flatten = acc.reverse ++ xs := by
  intro xs
  induction xs with
  | nil =>
    intro k acc
    simp [chunkGo]
  | cons x xs ih =>
    intro k acc
    cases k with
    | zero =>
      rw [chunkGo]
      simp [ih]
    | succ k =>
      rw [chunkGo, ih]
      simp

theorem chunkList_flatten (n : Nat) (l : List α) : (chunkList n l).flatten = l := by
  cases l with
  | nil => rfl
  | cons x xs =>
    rw [chunkList]
    rw [chunkGo_flatten]
    simp

theorem loadTables_ok (mans : List (Nat × Str)) (cats : List (Nat × (Str × Str)))
    (n : Nat) (comps : List RawComponent)
    (h : ∀ c ∈ comps, translateComponent mans cats c ≠ none) :
    loadTables mans cats n comps
      = ⟨comps.filterMap (translateComponent mans cats), true, statsOfComps comps⟩ := by
  unfold loadTables
  have hfl : (chunkList n comps).flatten = comps := chunkList_flatten n comps
  rw [runBatches_ok mans cats _ (by rw [hfl]; exact h), hfl]

/-- C7: when some row of a batch has a category or manufacturer id missing
from the lookup tables while all earlier batches translate, the run
aborts: the committed rows are exactly the translations of the earlier
batches, in order, and nothing of the failing batch or of later batches
is written. -/
theorem c7_missing_lookup_aborts (mans : List (Nat × Str))
    (cats : List (Nat × (Str × Str))) (pre : List (List RawComponent))
    (b : List RawComponent) (post : List (List RawComponent))
    (hbad : ∃ c ∈ b, lookupNat cats c.category_id = none
        ∨ lookupNat mans c.manufacturer_id = none)
    (hpre : ∀ c ∈ pre.flatten, translateComponent mans cats c ≠ none) :
    (runBatches mans cats (pre ++ b :: post)).ok = false
    ∧ (runBatches mans cats (pre ++ b :: post)).written
        = pre.flatten.filterMap (translateComponent mans cats) := by
  have hbatch : translateBatch mans cats b = none := by
    rcases hbad with ⟨c, hc, hor⟩
    exact translateBatch_eq_none mans cats b
      ⟨c, hc, translateComponent_none_of_bad mans cats c hor⟩
  induction pre with
  | nil =>
    rw [List.nil_append, runBatches, hbatch]
    exact ⟨rfl, rfl⟩
  | cons p pre ih =>
    have hp : ∀ c ∈ p, translateComponent mans cats c ≠ none := fun c hc =>
      hpre c (by simp [hc])
    have hpre' : ∀ c ∈ pre.flatten, translateComponent mans cats c ≠ none :=
      fun c hc => hpre c (by simp [hc])
    have ih' := ih hpre'
    rw [List.cons_append, runBatches, translateBatch_eq_some mans cats p hp]
    dsimp only
    refine ⟨ih'.1, ?_⟩
    rw [ih'.2]
    rw [show (p :: pre).flatten = p ++ pre.flatten from rfl]
    rw [List.filterMap_append]

/-- Witness for C7 on a two-batch fixture whose second batch holds a
component with an unknown category id. -/
theorem c7_missing_lookup_aborts_witness :
    (runBatches mans1 cats1 ([[compGood]] ++ [compBadCat] :: [])).ok = false
    ∧ (runBatches mans1 cats1 ([[compGood]] ++ [compBadCat] :: [])).written
        = ([[compGood]] : List (List RawComponent)).flatten.filterMap
            (translateComponent mans1 cats1) :=
  c7_missing_lookup_aborts mans1 cats1 [[compGood]] [compBadCat] []
    ⟨compBadCat, by simp, by decide⟩ (by decide)

/-- C8: when every fetched row translates, the batch loop's outcome — the
written rows, the completion flag and the summary counters — is the same
for every batch size, and the loaded part count equals the number of
fetched rows; the 25-row fixture with batch size 10 splits into batches
of 10, 10 and 5 and loads 25 parts. -/
theorem c8_batch_size_irrelevant :
    (∀ (mans : List (Nat × Str)) (cats : List (Nat × (Str × Str)))
        (comps : List RawComponent) (n1 n2 : Nat),
        (∀ c ∈ comps, translateComponent mans cats c ≠ none) →
        loadTables mans cats n1 comps = loadTables mans cats n2 comps
        ∧ (loadTables mans cats n1 comps).stats.part_count = comps.length
        ∧ (loadTables mans cats n1 comps).ok = true)
    ∧ (chunkList 10 comps25).map List.length = [10, 10, 5]
    ∧ (loadTables mans1 cats1 10 comps25).stats.part_count = 25 := by
  refine ⟨?_, by decide, by decide⟩
  intro mans cats comps n1 n2 h
  rw [loadTables_ok mans cats n1 comps h, loadTables_ok mans cats n2 comps h]
  exact ⟨rfl, statsOfComps_part_count comps, rfl⟩

/-- Witness for C8: the 25-row fixture loaded with batch sizes 10 and 7. -/
theorem c8_batch_size_irrelevant_witness :
    loadTables mans1 cats1 10 comps25 = loadTables mans1 cats1 7 comps25
    ∧ (loadTables mans1 cats1 10 comps25).stats.part_count = 25 := by
  have h := c8_batch_size_irrelevant.1 mans1 cats1 comps25 10 7 (by decide)
  exact ⟨h.1, h.2.1⟩

/-- C9: the category index holds exactly the distinct category pairs of the
written rows — every written pair occurs, nothing else occurs, and there
is no duplicate — in case-insensitive order by upper-cased first and then
upper-cased second category. -/
theorem c9_populate_categories :
    ∀ parts : List PartRow,
      (∀ p, p ∈ populate_categories parts ↔ p ∈ parts.map catOfRow)
      ∧ List.Nodup (populate_categories parts)
      ∧ List.Sorted catLe (populate_categories parts) := by
  intro parts
  have hperm : List.Perm (populate_categories parts) (parts.map catOfRow).dedup :=
    List.perm_insertionSort catLe _
  refine ⟨?_, ?_, ?_⟩
  · intro p
    rw [hperm.mem_iff, List.mem_dedup]
  · exact hperm.nodup_iff.mpr (List.nodup_dedup _)
  · exact List.sorted_insertionSort catLe _
